import Mathlib

/-!
Shallow embedding of the `chain` Go package (src/chain.go): ordered
composition of context-aware HTTP middleware.

Handlers are modelled semantically: the only observable effect of a
handler is what it writes to the response writer, recorded as a trace of
events.  The Go slice `Chain.m` is modelled with explicit backing arrays
in a heap, so that the aliasing behaviour of Go's `append` is captured
faithfully.  `context.Context` is an immutable derivation chain, and the
`*context.Context` pointers produced by `InitPHFC` are addresses into a
separate store of context cells.
-/

namespace ChainSpec

/-- Requests are opaque to the package; a tag suffices. -/
abbrev Req := Nat

/-- The observable effect of handlers on the response writer: a trace of
written events. -/
abbrev Trace := List Nat

/-- Keys of context values; `phfc` is the package's private
`postHandlerFuncCtxKey` (a `ctxKey`-typed `0`), distinct from every key
any other party can use. -/
inductive CtxKey where
  | phfc
  | user (n : Nat)
deriving DecidableEq

/-- Values stored in a context: either a `*context.Context` (an address
into the cell store) or an opaque payload. -/
inductive CtxVal where
  | ptr (addr : Nat)
  | raw (n : Nat)
deriving DecidableEq

/-- `context.Context`: an immutable chain of key/value derivations over
an opaque base context. -/
inductive Context where
  | base (id : Nat)
  | withValue (parent : Context) (key : CtxKey) (val : CtxVal)
deriving DecidableEq

/-- `ctx.Value(k)`: keyed lookup walking the derivation chain outward. -/
def Context.valueOf : Context → CtxKey → Option CtxVal
  | .base _, _ => none
  | .withValue p k v, k2 => if k2 = k then some v else p.valueOf k2

/-- Whether any derivation step of the context stored the PHFC key. -/
def Context.hasPHFC : Context → Bool
  | .base _ => false
  | .withValue p k _ => (k == CtxKey.phfc) || p.hasPHFC

/-- The `Handler` capability `ServeHTTPContext(ctx, w, r)`, modelled as a
function from context and request to a transformer of the response
trace. -/
abbrev Handler := Context → Req → Trace → Trace

/-- `http.Handler`'s `ServeHTTP(w, r)`: no context argument. -/
abbrev HostHandler := Req → Trace → Trace

/-- A wrap `func(Handler) Handler`. -/
abbrev Wrap := Handler → Handler

/-- A legacy wrap `func(http.Handler) http.Handler`. -/
abbrev LegacyWrap := HostHandler → HostHandler

/-- `HandlerFunc`: a bare function of the handler signature. -/
structure HandlerFunc where
  fn : Context → Req → Trace → Trace

/-- `ServeHTTPContext` of a `HandlerFunc` calls the function itself, so
the function satisfies the `Handler` capability. -/
def HandlerFunc.serveHTTPContext (h : HandlerFunc) : Handler := h.fn

/-- `handlerAdapter{ctx, h}`: its `ServeHTTP(w, r)` calls
`h.ServeHTTPContext(ctx, w, r)` with the captured context.
(`noCtxHandlerAdapter` embeds this structure and adds only an unused
`mw` field, so its `ServeHTTP` is the same function.) -/
def handlerAdapter (ctx : Context) (h : Handler) : HostHandler :=
  fun r t => h ctx r t

/-- A Go slice header: backing-array id, length and capacity.  The
package never reslices, so the offset is always zero and omitted. -/
structure GoSlice where
  arr : Nat
  len : Nat
  cap : Nat
deriving DecidableEq

/-- The store of backing arrays, indexed by array id. -/
abbrev Heap (α : Type) := List (List α)

/-- `s[i]`: read the backing array of `s` at index `i`. -/
def readIdx [Inhabited α] (hp : Heap α) (s : GoSlice) (i : Nat) : α :=
  (hp.getD s.arr []).getD i default

/-- The observable element sequence `s[0], …, s[len-1]` of a slice. -/
def sliceElems [Inhabited α] (hp : Heap α) (s : GoSlice) : List α :=
  (List.range s.len).map (readIdx hp s)

/-- Overwrite positions `i, i+1, …` of an array with the given
elements. -/
def writeList : List α → Nat → List α → List α
  | arr, _, [] => arr
  | arr, i, x :: rest => writeList (arr.set i x) (i + 1) rest

/-- Go's `append(s, xs...)`: when the spare capacity suffices it writes
into the existing backing array (aliasing with every other slice over
that array), otherwise it allocates a fresh array, doubling the capacity
in the small-slice regime of the Go runtime. -/
def goAppend [Inhabited α] (hp : Heap α) (s : GoSlice) (xs : List α) :
    GoSlice × Heap α :=
  if s.len + xs.length ≤ s.cap then
    (⟨s.arr, s.len + xs.length, s.cap⟩,
      hp.set s.arr (writeList (hp.getD s.arr []) s.len xs))
  else
    (⟨hp.length, s.len + xs.length,
        if 2 * s.cap < s.len + xs.length then s.len + xs.length
        else 2 * s.cap⟩,
      hp ++ [sliceElems hp s ++ xs ++
        List.replicate
          ((if 2 * s.cap < s.len + xs.length then s.len + xs.length
            else 2 * s.cap) - (s.len + xs.length)) default])

/-- `Chain` holds the context and the wrap slice. -/
structure Chain where
  ctx : Context
  m : GoSlice

/-- `New(ctx, mw...)`: a chain over a fresh backing array holding exactly
the given wraps (a variadic argument slice has length equal to its
capacity). -/
def New (ctx : Context) (mw : List Wrap) (hp : Heap Wrap) :
    Chain × Heap Wrap :=
  (⟨ctx, ⟨hp.length, mw.length, mw.length⟩⟩, hp ++ [mw])

/-- `c.Append(mw...)`: `c.m = append(c.m, mw...)` on a value receiver,
returning the updated copy of the receiver. -/
def Chain.Append (c : Chain) (mw : List Wrap) (hp : Heap Wrap) :
    Chain × Heap Wrap :=
  ((⟨c.ctx, (goAppend hp c.m mw).1⟩ : Chain), (goAppend hp c.m mw).2)

/-- The observable wrap sequence of a chain. -/
def Chain.seq (c : Chain) (hp : Heap Wrap) : List Wrap :=
  sliceElems hp c.m

/-- The loop `for i := len(c.m)-1; i >= 0; i-- { h = c.m[i](h) }`,
threading the heap it reads from. -/
def endLoop (s : GoSlice) : Handler → Nat → Heap Wrap → Handler × Heap Wrap
  | h, 0, hp => (h, hp)
  | h, i + 1, hp => endLoop s (readIdx hp s i h) i hp

/-- `c.End(h)`: a `nil` handler propagates as a `nil` `http.Handler`;
otherwise the stored wraps are applied to `h` in reverse index order and
the result is bound with `c.ctx` into an `http.Handler` via
`handlerAdapter`. -/
def Chain.End (c : Chain) (hp : Heap Wrap) (h : Option Handler) :
    Option HostHandler × Heap Wrap :=
  match h with
  | none => (none, hp)
  | some h =>
    ((some (handlerAdapter c.ctx (endLoop c.m h c.m.len hp).1) :
        Option HostHandler),
      (endLoop c.m h c.m.len hp).2)

/-- `c.EndFn(h)`: delegates to `End(nil)` on `nil`, otherwise treats the
function as a `Handler` (its `ServeHTTPContext`) and delegates to
`End`. -/
def Chain.EndFn (c : Chain) (hp : Heap Wrap) (h : Option HandlerFunc) :
    Option HostHandler × Heap Wrap :=
  match h with
  | none => Chain.End c hp none
  | some f => Chain.End c hp (some f.serveHTTPContext)

/-- `Bridge(h)`: the produced wrap, applied to an inner handler `n` and
invoked at context `ctx`, builds the plain-handler adapter capturing
`ctx` and `n` (the `noCtxHandlerAdapter`, whose `ServeHTTP` is the
embedded `handlerAdapter`'s), passes it through the legacy wrap, and
invokes the resulting plain handler on the real writer and request. -/
def Bridge (h : LegacyWrap) : Wrap :=
  fun n => fun ctx r t => h (handlerAdapter ctx n) r t

/-- The store of `context.Context` cells reachable by
`*context.Context` pointers. -/
abbrev CtxHeap := List Context

/-- Dereference a `*context.Context`. -/
def heapGet : CtxHeap → Nat → Option Context
  | [], _ => none
  | c :: _, 0 => some c
  | _ :: rest, n + 1 => heapGet rest n

/-- `InitPHFC(ctx)`: allocates a cell holding `ctx` (the address of the
parameter variable, which at that moment still holds the argument) and
derives a child context mapping the PHFC key to that pointer. -/
def InitPHFC (ctx : Context) (hp : CtxHeap) : Context × CtxHeap :=
  (Context.withValue ctx CtxKey.phfc (CtxVal.ptr hp.length), hp ++ [ctx])

/-- `GetPHFC(ctx)`: looks up the PHFC key and type-asserts the result to
`*context.Context`, returning the pointer and an `ok` flag. -/
def GetPHFC (ctx : Context) : Option Nat × Bool :=
  match ctx.valueOf CtxKey.phfc with
  | some (CtxVal.ptr a) => (some a, true)
  | _ => (none, false)

/-- Nested application `ws[0] (ws[1] (… ws[n-1] h))`: the head of the
list is the outermost layer, the last element innermost. -/
def applyWraps : List Wrap → Handler → Handler
  | [], h => h
  | w :: rest, h => w (applyWraps rest h)

/-- An instrumented wrap writing `ent` to the trace on the way in (before
calling the inner handler) and `exi` on the way out. -/
def instrWrap (ent exi : Trace) : Wrap :=
  fun hIn => fun ctx r t => hIn ctx r (t ++ ent) ++ exi

/-- Nested application of legacy wraps: head outermost. -/
def composeLegacy : List LegacyWrap → HostHandler → HostHandler
  | [], g => g
  | l :: rest, g => l (composeLegacy rest g)

/-- Appending a wrap at the tail of the list nests it innermost. -/
theorem applyWraps_snoc (l : List Wrap) (w : Wrap) (h : Handler) :
    applyWraps (l ++ [w]) h = applyWraps l (w h) := by
  induction l with
  | nil => rfl
  | cons x xs ih => simp [applyWraps, ih]

/-- The reverse-index loop of `End` computes the nested application of
the first `n` slice elements, head outermost, and leaves the heap
untouched. -/
theorem endLoop_spec (s : GoSlice) (h : Handler) (n : Nat) (hp : Heap Wrap) :
    endLoop s h n hp =
      (applyWraps ((List.range n).map (readIdx hp s)) h, hp) := by
  induction n generalizing h with
  | zero => rfl
  | succ n ih =>
    rw [endLoop, ih, List.range_succ, List.map_append]
    simp [applyWraps_snoc]

/-- `End` on a non-nil handler: the adapter binding the chain's context
with the nested application of the observable wrap sequence. -/
theorem End_some (c : Chain) (hp : Heap Wrap) (h : Handler) :
    Chain.End c hp (some h) =
      (some (handlerAdapter c.ctx (applyWraps (Chain.seq c hp) h)), hp) := by
  simp [Chain.End, endLoop_spec, Chain.seq, sliceElems]

/-- Reading every index of a list back yields the list. -/
theorem idxMap_self [Inhabited α] (l : List α) :
    (List.range l.length).map (fun i => l.getD i default) = l := by
  induction l with
  | nil => rfl
  | cons x xs ih =>
    rw [List.length_cons, List.range_succ_eq_map, List.map_cons, List.map_map]
    simp only [Function.comp_def, List.getD_cons_zero, List.getD_cons_succ]
    rw [ih]

/-- Reading the freshly appended array at its id. -/
theorem getD_snoc (hp : Heap α) (ws : List α) :
    (hp ++ [ws]).getD hp.length [] = ws := by
  induction hp with
  | nil => rfl
  | cons x xs ih => exact ih

/-- A chain built by `New` observably stores exactly the given wraps. -/
theorem seq_New (ctx : Context) (ws : List Wrap) (hp : Heap Wrap) :
    Chain.seq (New ctx ws hp).1 (New ctx ws hp).2 = ws := by
  have h1 : readIdx (hp ++ [ws]) ⟨hp.length, ws.length, ws.length⟩ =
      fun i => ws.getD i default := by
    funext i
    simp [readIdx, getD_snoc]
  simp only [Chain.seq, sliceElems, New]
  rw [h1, idxMap_self]

/-- Dereferencing the freshly allocated cell. -/
theorem heapGet_snoc (hp : CtxHeap) (c : Context) :
    heapGet (hp ++ [c]) hp.length = some c := by
  induction hp with
  | nil => rfl
  | cons x xs ih => exact ih

/-- `GetPHFC` right after `InitPHFC` finds the fresh pointer. -/
theorem getPHFC_init (ctx : Context) (hp : CtxHeap) :
    GetPHFC (InitPHFC ctx hp).1 = (some hp.length, true) := by
  simp [GetPHFC, InitPHFC, Context.valueOf]

/-- A context with no PHFC derivation step has no value under the PHFC
key. -/
theorem valueOf_phfc_none (c : Context) (h : c.hasPHFC = false) :
    c.valueOf CtxKey.phfc = none := by
  induction c with
  | base i => rfl
  | withValue p k v ih =>
    simp only [Context.hasPHFC, Bool.or_eq_false_iff, beq_eq_false_iff_ne,
      ne_eq] at h
    simp [Context.valueOf, Ne.symm h.1, ih h.2]

/-- Deriving a context yields a strictly larger, hence different,
value. -/
theorem withValue_ne (p : Context) (k : CtxKey) (v : CtxVal) :
    Context.withValue p k v ≠ p := by
  intro h
  have hs := congrArg sizeOf h
  simp only [Context.withValue.sizeOf_spec] at hs
  omega

/-- Trace shape of a nested application of instrumented wraps: entry
events in list order, then the terminal handler, then exit events in
reverse list order. -/
theorem applyWraps_instr (ps : List (Trace × Trace)) (h : Handler)
    (c : Context) (r : Req) (t : Trace) :
    applyWraps (ps.map fun q => instrWrap q.1 q.2) h c r t =
      h c r (t ++ (ps.map Prod.fst).flatten) ++
        (ps.reverse.map Prod.snd).flatten := by
  induction ps generalizing t with
  | nil => simp [applyWraps]
  | cons q rest ih =>
    simp [applyWraps, instrWrap, ih, List.append_assoc]

/-- A chain of bridged legacy wraps behaves as the legacy composition
applied to the adapter that still carries the original context. -/
theorem applyWraps_bridge (ls : List LegacyWrap) (h : Handler)
    (c : Context) (r : Req) (t : Trace) :
    applyWraps (ls.map Bridge) h c r t =
      composeLegacy ls (handlerAdapter c h) r t := by
  induction ls generalizing r t with
  | nil => rfl
  | cons l rest ih =>
    have hfun : handlerAdapter c (applyWraps (rest.map Bridge) h) =
        composeLegacy rest (handlerAdapter c h) := by
      funext r2 t2
      exact ih r2 t2
    show Bridge l (applyWraps (rest.map Bridge) h) c r t = _
    simp only [Bridge, composeLegacy, hfun]

/-- An instrumented wrap writing only the entry event `k`. -/
def tagWrap (k : Nat) : Wrap := instrWrap [k] []

/-- A terminal handler writing the event `99`. -/
def hTerm : Handler := fun _ _ t => t ++ [99]

/-- Aliasing scenario, step 1: `New(ctx, tagWrap 0)` — slice of length 1,
capacity 1 over a fresh array. -/
def sBase : Chain × Heap Wrap := New (Context.base 0) [tagWrap 0] []

/-- Aliasing scenario, step 2: append `tagWrap 1` — reallocates to
capacity 2. -/
def sOne : Chain × Heap Wrap := Chain.Append sBase.1 [tagWrap 1] sBase.2

/-- Aliasing scenario, step 3: append `tagWrap 2` — reallocates to
capacity 4, leaving one spare slot. -/
def sTwo : Chain × Heap Wrap := Chain.Append sOne.1 [tagWrap 2] sOne.2

/-- Aliasing scenario, step 4: first sibling append of `tagWrap 3` onto
`sTwo` — fits in the spare slot, writing the shared backing array in
place. -/
def sX : Chain × Heap Wrap := Chain.Append sTwo.1 [tagWrap 3] sTwo.2

/-- Aliasing scenario, step 5: second sibling append of `tagWrap 4` onto
the same `sTwo` — overwrites the slot that `sX` already occupies. -/
def sY : Chain × Heap Wrap := Chain.Append sTwo.1 [tagWrap 4] sX.2

/-- C1: for every chain whose stored wrap sequence is the instrumented
wraps of `ps` in that order and every terminal handler, the handler
returned by `End` writes the entry events in append order, then runs the
terminal handler, then writes the exit events in reverse append order:
the first-appended wrap is the outermost layer and the composition is
`w0 (w1 (… w(n-1) h))`. -/
theorem c1_first_appended_outermost (c : Chain) (hp : Heap Wrap)
    (ps : List (Trace × Trace)) (hIn : Handler)
    (hseq : Chain.seq c hp = ps.map fun q => instrWrap q.1 q.2) :
    (Chain.End c hp (some hIn)).1 =
      some (fun r t =>
        hIn c.ctx r (t ++ (ps.map Prod.fst).flatten) ++
          (ps.reverse.map Prod.snd).flatten) := by
  rw [End_some]
  refine congrArg some (funext fun r => funext fun t => ?_)
  show applyWraps (Chain.seq c hp) hIn c.ctx r t = _
  rw [hseq]
  exact applyWraps_instr ps hIn c.ctx r t

/-- Witness for C1 at a two-wrap chain built by `New`. -/
theorem c1_witness :
    Chain.seq (New (Context.base 0) [instrWrap [0] [10], instrWrap [1] [11]] []).1
        (New (Context.base 0) [instrWrap [0] [10], instrWrap [1] [11]] []).2 =
      ([([0], [10]), ([1], [11])].map fun q => instrWrap q.1 q.2) ∧
    (Chain.End (New (Context.base 0) [instrWrap [0] [10], instrWrap [1] [11]] []).1
        (New (Context.base 0) [instrWrap [0] [10], instrWrap [1] [11]] []).2
        (some hTerm)).1 =
      some (fun r t =>
        hTerm (Context.base 0) r
            (t ++ ([([0], [10]), ([1], [11])].map Prod.fst).flatten) ++
          (([([0], [10]), ([1], [11])] :
              List (Trace × Trace)).reverse.map Prod.snd).flatten) :=
  ⟨seq_New (Context.base 0) [instrWrap [0] [10], instrWrap [1] [11]] [],
    c1_first_appended_outermost _ _ [([0], [10]), ([1], [11])] hTerm
      (seq_New (Context.base 0) [instrWrap [0] [10], instrWrap [1] [11]] [])⟩

/-- C2 (code bug): the naive `append` reuses the shared backing array.
After the sibling append creating `sY`, finalizing `sX` runs `tagWrap 4`
(appended to create the sibling `sY`) instead of `sX`'s own recorded
last wrap `tagWrap 3`: the trace is `[0, 1, 2, 4, 99]`, not the
`[0, 1, 2, 3, 99]` the claim requires. -/
theorem c2_append_aliasing :
    Option.map (fun g => g 0 ([] : Trace))
        (Chain.End sX.1 sY.2 (some hTerm)).1 = some [0, 1, 2, 4, 99] ∧
      (some [0, 1, 2, 4, 99] : Option Trace) ≠ some [0, 1, 2, 3, 99] :=
  ⟨rfl, by decide⟩

/-- C3 counterexample: for the chain over `[instrWrap [0] [],
instrWrap [1] []]`, the claim (last-appended wrap outermost) predicts
the trace `[1, 0, 99]`, but the finalized handler produces
`[0, 1, 99]`. -/
theorem c3_counterexample :
    Option.map (fun g => g 0 ([] : Trace))
        (Chain.End (New (Context.base 0) [instrWrap [0] [], instrWrap [1] []] []).1
          (New (Context.base 0) [instrWrap [0] [], instrWrap [1] []] []).2
          (some hTerm)).1 = some [0, 1, 99] ∧
      (some [0, 1, 99] : Option Trace) ≠ some [1, 0, 99] :=
  ⟨rfl, by decide⟩

/-- C3 (amended): `End(h)` iterates over the stored wraps in reverse
index order, so the resulting composition is
`wrap0 (wrap1 (… wrap(n-1) h))`: the FIRST-appended wrap is the
outermost layer and the LAST-appended wrap is innermost (closest to
`h`), bound with the chain's context into the host handler. -/
theorem c3_amended_first_outermost (c : Chain) (hp : Heap Wrap) (h : Handler) :
    Chain.End c hp (some h) =
      (some (handlerAdapter c.ctx (applyWraps (Chain.seq c hp) h)), hp) :=
  End_some c hp h

/-- C4: finalizing any chain with the absent handler returns the absent
host handler immediately, leaving the heap (hence every stored wrap)
untouched and unapplied. -/
theorem c4_end_nil (c : Chain) (hp : Heap Wrap) :
    Chain.End c hp none = (none, hp) := rfl

/-- C5: `EndFn(nil)` is exactly `End(nil)`, and `EndFn(f)` for non-nil
`f` is exactly `End` of `f` adapted to the Handler capability. -/
theorem c5_endFn_reduces_to_End (c : Chain) (hp : Heap Wrap) :
    Chain.EndFn c hp none = Chain.End c hp none ∧
      ∀ f : HandlerFunc, Chain.EndFn c hp (some f) =
        Chain.End c hp (some f.serveHTTPContext) :=
  ⟨rfl, fun _ => rfl⟩

/-- C6: a chain built purely from bridged legacy wraps, finalized with a
context-aware inner handler, behaves as the legacy composition applied
to a plain host handler, and that plain handler invokes the inner
handler with the chain's original context unchanged. -/
theorem c6_bridge_roundtrip (ctx : Context) (ls : List LegacyWrap)
    (hp : Heap Wrap) (hIn : Handler) :
    (Chain.End (New ctx (ls.map Bridge) hp).1 (New ctx (ls.map Bridge) hp).2
        (some hIn)).1 =
      some (fun r t => composeLegacy ls (fun r2 t2 => hIn ctx r2 t2) r t) := by
  rw [End_some, seq_New]
  refine congrArg some (funext fun r => funext fun t => ?_)
  show applyWraps (ls.map Bridge) hIn ctx r t = _
  rw [applyWraps_bridge]
  rfl

/-- C7: `GetPHFC` right after `InitPHFC` returns the stored pointer with
`found = true`; on a context whose derivation chain has no entry under
the PHFC key it returns `found = false`. -/
theorem c7_phfc_roundtrip (ctx : Context) (hp : CtxHeap) (c : Context)
    (hnone : c.hasPHFC = false) :
    GetPHFC (InitPHFC ctx hp).1 = (some hp.length, true) ∧
      GetPHFC c = (none, false) := by
  refine ⟨getPHFC_init ctx hp, ?_⟩
  simp [GetPHFC, valueOf_phfc_none c hnone]

/-- Witness for C7 at a base context. -/
theorem c7_witness :
    (Context.base 1).hasPHFC = false ∧
      (GetPHFC (InitPHFC (Context.base 0) []).1 = (some 0, true) ∧
        GetPHFC (Context.base 1) = (none, false)) :=
  ⟨rfl, c7_phfc_roundtrip (Context.base 0) [] (Context.base 1) rfl⟩

/-- C8: the host handler built by `End(h)` on every invocation calls the
fully wrapped handler's capability with exactly the chain's stored
context, the writer state and the request. -/
theorem c8_fixed_context_binding (c : Chain) (hp : Heap Wrap)
    (hIn : Handler) (r : Req) (t : Trace) :
    Option.map (fun g => g r t) (Chain.End c hp (some hIn)).1 =
      some (applyWraps (Chain.seq c hp) hIn c.ctx r t) := by
  rw [End_some]
  rfl

/-- C9: the cell allocated by `InitPHFC` — the one the pointer returned
by `GetPHFC` designates — holds the ORIGINAL context passed to
`InitPHFC`, not the derived context `InitPHFC` returned. -/
theorem c9_cell_holds_original (ctx : Context) (hp : CtxHeap) :
    (GetPHFC (InitPHFC ctx hp).1).1 = some hp.length ∧
      heapGet (InitPHFC ctx hp).2 hp.length = some ctx ∧
      heapGet (InitPHFC ctx hp).2 hp.length ≠ some (InitPHFC ctx hp).1 := by
  refine ⟨?_, heapGet_snoc hp ctx, ?_⟩
  · rw [getPHFC_init]
  · show heapGet (hp ++ [ctx]) hp.length ≠ some (InitPHFC ctx hp).1
    rw [heapGet_snoc hp ctx]
    intro hEq
    exact withValue_ne ctx CtxKey.phfc (CtxVal.ptr hp.length)
      (Option.some.inj hEq).symm

/-- C10: `End` and `EndFn` leave the heap — hence every chain's stored
context and observable wrap sequence — unchanged, so finalizing the same
chain again yields the same host handler. -/
theorem c10_end_does_not_mutate (c : Chain) (hp : Heap Wrap)
    (h : Option Handler) (f : Option HandlerFunc) :
    (Chain.End c hp h).2 = hp ∧ (Chain.EndFn c hp f).2 = hp ∧
      Chain.End c ((Chain.End c hp h).2) h = Chain.End c hp h := by
  have hend : ∀ g : Option Handler, (Chain.End c hp g).2 = hp := by
    intro g
    cases g with
    | none => rfl
    | some g => simp [Chain.End, endLoop_spec]
  refine ⟨hend h, ?_, ?_⟩
  · cases f with
    | none => exact hend none
    | some f => exact hend (some f.serveHTTPContext)
  · rw [hend h]

end ChainSpec
